import Mathlib

/-!
Shallow embedding of the RespInPeace breathing-belt analysis code (`rip.py`).

Sample indices are natural numbers; raw signal amplitudes and all quantities
obtained by multiplying or dividing by the sampling frequency are rationals
(Python floats are modelled as exact rationals).  A Python float `NaN` result
is modelled as `Option.none`.  Methods that can raise are modelled as
returning the unchanged object state together with an optional error.

External library calls (`peakdetect`, `np.histogram`, `scipy.signal.argrelmax`,
`peak_prominences`, `peak_widths`) are collaborators outside this repository;
their outputs (detected extrema, histogram-peak prominences, amplitude bands)
are taken as inputs of the embedded functions, and everything the repository
does with them is translated from the source.
-/

namespace RIP

/-- Failure modes of the translated methods: a Python `IndexError`
(out-of-range list or array access) and an `AssertionError`. -/
inductive PyError where
  | indexError
  | assertionError
deriving DecidableEq

/-- The stored per-session fields of the `RIP` class that the claims concern:
`self._troughs`, `self._peaks` and `self._holds`, each `None` until written. -/
structure State where
  _troughs : Option (List ℕ)
  _peaks : Option (List ℕ)
  _holds : Option (List (ℕ × ℕ))
deriving DecidableEq

/-- `RIP.find_cycles` (rip.py lines 186-204) after the external `peakdetect`
call, applied to the detected peak and trough sample indices:
drop the first peak when it precedes the first trough, drop the last peak
when it follows the last trough, assert `len(peaks) == len(troughs) - 1`,
then overwrite the stored arrays.  Empty-list accesses (`peaks[0]`,
`peaks[-1]`, and the column extraction `np.array(peaks)[:, 0]` on an empty
list) raise `IndexError` before anything is stored. -/
def find_cycles (st : State) (peaks troughs : List ℕ) : State × Option PyError :=
  match peaks.head?, troughs.head? with
  | some p0, some t0 =>
    let peaks1 := if p0 < t0 then peaks.tail else peaks
    match peaks1.getLast?, troughs.getLast? with
    | some pl, some tl =>
      let peaks2 := if tl < pl then peaks1.dropLast else peaks1
      if peaks2.length = troughs.length - 1 then
        if peaks2.isEmpty then (st, some PyError.indexError)
        else ({ st with _peaks := some peaks2, _troughs := some troughs }, none)
      else (st, some PyError.assertionError)
    | _, _ => (st, some PyError.indexError)
  | _, _ => (st, some PyError.indexError)

/-- The first trimming step as the specification words it: when the first
detected peak precedes the first detected trough, that first peak is dropped. -/
def specTrimFirst (peaks troughs : List ℕ) : List ℕ :=
  if peaks.head?.getD 0 < troughs.head?.getD 0 then peaks.tail else peaks

/-- Both trimming steps as the specification words them: additionally, when
the last remaining peak follows the last detected trough, it is dropped. -/
def specTrimmedPeaks (peaks troughs : List ℕ) : List ℕ :=
  let p1 := specTrimFirst peaks troughs
  if troughs.getLast?.getD 0 < p1.getLast?.getD 0 then p1.dropLast else p1

/-- The consolidation sweep of `RIP.find_holds` (rip.py lines 286-298):
a left-to-right pass over the hold candidates keeping a current hold `p`;
a candidate starting closer than `min_hold_gap * samp_freq` to the end of
`p` extends it, otherwise `p` is flushed subject to the
`min_hold_dur * samp_freq` duration test.  The final current hold is
appended unconditionally, exactly as in the source.  (The empty-candidate,
no-current-hold case is unreachable from `find_holds`, which returns early
on an empty candidate list.) -/
def holdSweep (min_hold_dur min_hold_gap samp_freq : ℚ) :
    List (ℕ × ℕ) → Option (ℕ × ℕ) → List (ℕ × ℕ) → List (ℕ × ℕ)
  | [], none, acc => acc
  | [], some p, acc => acc ++ [p]
  | h :: t, none, acc => holdSweep min_hold_dur min_hold_gap samp_freq t (some h) acc
  | h :: t, some p, acc =>
    if (h.1 : ℚ) - (p.2 : ℚ) < min_hold_gap * samp_freq then
      holdSweep min_hold_dur min_hold_gap samp_freq t (some (p.1, h.2)) acc
    else if min_hold_dur * samp_freq ≤ (p.2 : ℚ) - (p.1 : ℚ) then
      holdSweep min_hold_dur min_hold_gap samp_freq t (some h) (acc ++ [p])
    else
      holdSweep min_hold_dur min_hold_gap samp_freq t (some h) acc

/-- `RIP.find_holds` (rip.py lines 262-299) from the point where the
per-interval hold candidates `hold_cand` have been collected (the
per-interval stage is `find_holds_within_interval` below): an empty
candidate list returns with the session untouched, otherwise the
consolidated sweep output is stored in `self._holds`. -/
def find_holds (st : State) (hold_cand : List (ℕ × ℕ))
    (min_hold_dur min_hold_gap samp_freq : ℚ) : State :=
  if hold_cand.isEmpty then st
  else { st with
    _holds := some (holdSweep min_hold_dur min_hold_gap samp_freq hold_cand none []) }

/-- The `RIP.holds` property (rip.py lines 354-358): `None` when `_holds`
is unset, otherwise the stored sample pairs divided by the sampling
frequency. -/
def holds (st : State) (samp_freq : ℚ) : Option (List (ℚ × ℚ)) :=
  st._holds.map (fun l => l.map (fun p => ((p.1 : ℚ) / samp_freq, (p.2 : ℚ) / samp_freq)))

/-- The `RIP.cycles` property (rip.py lines 325-329):
pairs of consecutive troughs, divided by the sampling frequency. -/
def cycles (troughs : List ℕ) (samp_freq : ℚ) : List (ℚ × ℚ) :=
  (troughs.dropLast.zip troughs.tail).map
    (fun p => ((p.1 : ℚ) / samp_freq, (p.2 : ℚ) / samp_freq))

/-- The `RIP.inhalations` property (rip.py lines 331-335):
trough-to-peak pairs, divided by the sampling frequency. -/
def inhalations (troughs peaks : List ℕ) (samp_freq : ℚ) : List (ℚ × ℚ) :=
  (troughs.dropLast.zip peaks).map
    (fun p => ((p.1 : ℚ) / samp_freq, (p.2 : ℚ) / samp_freq))

/-- The `RIP.exhalations` property (rip.py lines 337-341):
peak-to-trough pairs, divided by the sampling frequency. -/
def exhalations (troughs peaks : List ℕ) (samp_freq : ℚ) : List (ℚ × ℚ) :=
  (peaks.zip troughs.tail).map
    (fun p => ((p.1 : ℚ) / samp_freq, (p.2 : ℚ) / samp_freq))

/-- The `RIP.segments` property (rip.py lines 343-352): the concatenation of
the inhalation and exhalation sample pairs, reordered by
`seg_samp[:, 1].argsort()[::-1]` - that is, sorted by end sample and then
reversed - and divided by the sampling frequency.  `argsort` followed by
reversal is modelled as a sort ascending by end followed by `reverse`;
in valid states all end samples are distinct, so the order is unambiguous. -/
def segments (troughs peaks : List ℕ) (samp_freq : ℚ) : List (ℚ × ℚ) :=
  let seg := (troughs.dropLast.zip peaks) ++ (peaks.zip troughs.tail)
  ((seg.insertionSort (fun a b => a.2 ≤ b.2)).reverse).map
    (fun p => ((p.1 : ℚ) / samp_freq, (p.2 : ℚ) / samp_freq))

/-- `np.median` of a list of rationals: sort, then take the middle element
(odd length) or the mean of the two middle elements (even length). -/
def npMedian (l : List ℚ) : ℚ :=
  let s := l.insertionSort (· ≤ ·)
  if l.length % 2 = 1 then s.getD (l.length / 2) 0
  else (s.getD (l.length / 2 - 1) 0 + s.getD (l.length / 2) 0) / 2

/-- `RIP.estimate_rel` (rip.py lines 374-397): for every trough except the
last, the median raw amplitude at the troughs whose sample index is strictly
below the current one and strictly above the current one minus
`lookbehind * samp_freq`; `none` (Python `NaN`) when no such trough exists.
The `min_len` parameter is accepted, exactly as in the source, and never
read. -/
def estimate_rel (resp : List ℚ) (troughs : List ℕ)
    (lookbehind samp_freq : ℚ) (min_len : ℕ) : List (Option ℚ) :=
  troughs.dropLast.map (fun (t : ℕ) =>
    let prev := troughs.filter (fun (t2 : ℕ) =>
      decide ((t2 : ℚ) < (t : ℚ)) && decide ((t : ℚ) - lookbehind * samp_freq < (t2 : ℚ)))
    if prev.isEmpty then none
    else some (npMedian (prev.map (fun idx => resp.getD idx 0))))

/-- The segmentation branch of `RIP.__init__` (rip.py lines 97-102): both
`self._troughs` and `self._peaks` are built from `np.round` of the
inhalation start times multiplied by the sampling frequency.  `np.round` of
a generator object raises at run time; this definition models the intended
elementwise array semantics of those two expressions, which is the reading
most favourable to the code. -/
def init_segmentation (inhalations : List (ℚ × ℚ)) (samp_freq : ℚ) :
    List ℤ × List ℤ :=
  (inhalations.map (fun intr => round (intr.1 * samp_freq)),
   inhalations.map (fun intr => round (intr.1 * samp_freq)))

/-- The extremum-array invariant as the specification states it:
`len(peaks) == len(troughs) - 1` and the values strictly alternate
trough, peak, trough, peak, ..., beginning and ending with a trough. -/
def extremumInvariant (troughs peaks : List ℤ) : Prop :=
  peaks.length = troughs.length - 1 ∧
  ∀ i, i < peaks.length →
    troughs.getD i 0 < peaks.getD i 0 ∧ peaks.getD i 0 < troughs.getD (i + 1) 0

instance extremumInvariant_decidable (troughs peaks : List ℤ) :
    Decidable (extremumInvariant troughs peaks) := by
  unfold extremumInvariant
  exact instDecidableAnd

/-- `RIP._find_islands` (rip.py lines 447-460) at `min_gap = 0`, its only
call site: the maximal runs of ones of a zero-one array, returned as
half-open `(onset, offset)` index pairs.  The source computes them as the
positions of the rising and falling edges of the zero-padded array; at
`min_gap = 0` the gap-closing step deletes nothing, since consecutive
islands are always separated by at least one zero.  `i` is the index of the
next element and the `Option` argument carries the onset of the currently
open run. -/
def islandsAux : List ℕ → ℕ → Option ℕ → List (ℕ × ℕ)
  | [], _, none => []
  | [], i, some s => [(s, i)]
  | x :: xs, i, none =>
    if x = 1 then islandsAux xs (i + 1) (some i) else islandsAux xs (i + 1) none
  | x :: xs, i, some s =>
    if x = 1 then islandsAux xs (i + 1) (some s)
    else (s, i) :: islandsAux xs (i + 1) none

/-- The islands of a zero-one array, starting the scan at index 0. -/
def find_islands (a : List ℕ) : List (ℕ × ℕ) :=
  islandsAux a 0 none

/-- The `within_hold_region` indicator of rip.py lines 242-243: one where the
sample lies between `min(l, h)` and `max(l, h)` inclusive, else zero. -/
def within_hold_region (intr : List ℚ) (l h : ℚ) : List ℕ :=
  intr.map (fun x => if min l h ≤ x ∧ x ≤ max l h then 1 else 0)

/-- `hold_cand[np.argmax(hold_cand_durs)]` of rip.py lines 245-246:
the first pair of maximal duration, found by a scan that replaces the
current best only on strict improvement, matching `np.argmax` returning
the first maximising index. -/
def argmaxDur : List (ℕ × ℕ) → (ℕ × ℕ) → (ℕ × ℕ)
  | [], best => best
  | x :: xs, best =>
    if best.2 - best.1 < x.2 - x.1 then argmaxDur xs x else argmaxDur xs best

/-- The hold candidate contributed by one amplitude band (rip.py lines
241-246): the longest island of the in-band indicator.  `none` models the
`ValueError` that `np.argmax` raises on an empty island list. -/
def bandCandidate (intr : List ℚ) (l h : ℚ) : Option (ℕ × ℕ) :=
  match find_islands (within_hold_region intr l h) with
  | [] => none
  | x :: xs => some (argmaxDur xs x)

/-- The per-band candidates of all bands in order (the `for l, h in zip(...)`
loop of rip.py lines 241-246); `none` as soon as any band has no island. -/
def bandCandidates (intr : List ℚ) : List (ℚ × ℚ) → Option (List (ℕ × ℕ))
  | [] => some []
  | b :: bs =>
    match bandCandidate intr b.1 b.2, bandCandidates intr bs with
    | some c, some cs => some (c :: cs)
    | _, _ => none

/-- The overlap-merging loop of rip.py lines 249-259: a left-to-right pass
over the start-sorted candidates; a candidate starting at or before the end
of the current hold `p` replaces the end of `p` by its own end, otherwise
`p` is flushed.  The final current hold is appended.  (The empty-input,
no-current-hold case is unreachable: the loop runs on at least one band.) -/
def merge_overlapping : List (ℕ × ℕ) → Option (ℕ × ℕ) → List (ℕ × ℕ) → List (ℕ × ℕ)
  | [], none, acc => acc
  | [], some p, acc => acc ++ [p]
  | h :: t, none, acc => merge_overlapping t (some h) acc
  | h :: t, some p, acc =>
    if h.1 ≤ p.2 then merge_overlapping t (some (p.1, h.2)) acc
    else merge_overlapping t (some h) (acc ++ [p])

deriving instance DecidableEq for Except

instance : IsTotal (ℕ × ℕ) (fun a b => a.1 ≤ b.1) :=
  ⟨fun a b => Nat.le_total a.1 b.1⟩

instance : IsTrans (ℕ × ℕ) (fun a b => a.1 ≤ b.1) :=
  ⟨fun _ _ _ hab hbc => le_trans hab hbc⟩

/-- `RIP._find_holds_within_interval` (rip.py lines 210-260).  The external
scipy calls are collaborators: `proms` is the list of prominences of the
local maxima of the normalised amplitude histogram, and `bands` is the list
of amplitude bands that `peak_widths` and the bin edges produce for the
retained peaks.  The repository code keeps the peaks whose prominence
strictly exceeds `peak_prominence`, returns `None` when none remains,
computes one candidate per band, sorts the candidates by start
(`sorted(holds, key=itemgetter(0))`) and merges overlapping ones.
`Except.error` models the `ValueError` raised on a band with no island. -/
def find_holds_within_interval (intr : List ℚ) (proms : List ℚ)
    (peak_prominence : ℚ) (bands : List (ℚ × ℚ)) :
    Except Unit (Option (List (ℕ × ℕ))) :=
  if (proms.filter (fun pr => decide (peak_prominence < pr))).isEmpty then
    Except.ok none
  else
    match bandCandidates intr bands with
    | none => Except.error ()
    | some cands =>
      Except.ok (some (merge_overlapping
        (cands.insertionSort (fun a b => a.1 ≤ b.1)) none []))

/-- Claim C1, counterexample: with one detected peak at sample 3 and troughs
at samples 5, 10, 20, the first peak precedes the first trough and is
dropped, after which the trimmed peak count (0) differs from
`len(troughs) - 1` (2); the claim then requires an assertion failure, but
the call fails with an `IndexError` raised by `peaks[-1]` on the emptied
list (stored arrays are still left unchanged). -/
theorem claim1_counterexample :
    specTrimmedPeaks [3] [5, 10, 20] = [] ∧
    (specTrimmedPeaks [3] [5, 10, 20]).length ≠ ([5, 10, 20] : List ℕ).length - 1 ∧
    find_cycles ⟨none, none, none⟩ [3] [5, 10, 20]
      = (⟨none, none, none⟩, some PyError.indexError) ∧
    PyError.indexError ≠ PyError.assertionError := by
  decide

/-- Claim C1 (amended): whenever `peakdetect` returned at least one peak and
at least two troughs and dropping a first peak that precedes the first
trough leaves the peak list nonempty, `find_cycles` drops the first detected
peak when it precedes the first detected trough and the last remaining peak
when it follows the last detected trough; if the trimmed peak count then
differs from `len(troughs) - 1` the call fails with an assertion error and
the stored arrays are unchanged, otherwise both stored arrays are
overwritten with the trimmed results. -/
theorem claim1_trimming_amended (st : State) (peaks troughs : List ℕ)
    (hp : peaks ≠ []) (ht : 2 ≤ troughs.length)
    (hp1 : specTrimFirst peaks troughs ≠ []) :
    ((specTrimmedPeaks peaks troughs).length = troughs.length - 1 →
      find_cycles st peaks troughs
        = ({ st with _peaks := some (specTrimmedPeaks peaks troughs),
                     _troughs := some troughs }, none)) ∧
    ((specTrimmedPeaks peaks troughs).length ≠ troughs.length - 1 →
      find_cycles st peaks troughs = (st, some PyError.assertionError)) := by
  obtain ⟨p0, pr, rfl⟩ := List.exists_cons_of_ne_nil hp
  have htne : troughs ≠ [] := by
    intro h
    rw [h] at ht
    simp at ht
  obtain ⟨t0, tr, rfl⟩ := List.exists_cons_of_ne_nil htne
  simp only [specTrimFirst, List.head?_cons, Option.getD_some, List.tail_cons] at hp1 ⊢
  simp only [specTrimmedPeaks, specTrimFirst, List.head?_cons, Option.getD_some,
    List.tail_cons, find_cycles]
  rw [List.getLast?_eq_getLast _ hp1,
    List.getLast?_eq_getLast (t0 :: tr) (List.cons_ne_nil t0 tr)]
  simp only [Option.getD_some]
  set p1 : List ℕ := if p0 < t0 then pr else p0 :: pr with hp1def
  set peaks2 : List ℕ :=
    if (t0 :: tr).getLast (List.cons_ne_nil t0 tr) < p1.getLast hp1 then
      p1.dropLast else p1 with hp2def
  constructor
  · intro hlen
    rw [if_pos hlen, if_neg]
    simp only [List.isEmpty_iff]
    intro hnil
    rw [hnil] at hlen
    simp only [List.length_nil, List.length_cons] at hlen ht
    omega
  · intro hlen
    rw [if_neg hlen]

/-- Claim C1, witness: without trimming needed, two peaks and three troughs
satisfy the amended hypotheses and the arrays are stored. -/
theorem claim1_witness :
    find_cycles ⟨none, none, none⟩ [5, 15] [0, 10, 20]
      = (⟨some [0, 10, 20], some [5, 15], none⟩, none) := by
  have h := (claim1_trimming_amended ⟨none, none, none⟩ [5, 15] [0, 10, 20]
    (by decide) (by decide) (by decide)).1 (by decide)
  exact h.trans (by decide)

/-- Claim C2, code bug: the consolidation sweep of `find_holds` appends the
final accumulated hold without the minimum-duration test.  With candidates
(0, 10) and (100, 110), `min_hold_dur = 0.25` and `samp_freq = 100`
(duration threshold 25 samples), the earlier 10-sample hold is dropped on
flush but the identical-length final hold is stored, violating the claimed
duration lower bound on every stored hold. -/
theorem claim2_last_hold_unchecked :
    find_holds ⟨none, none, none⟩ [(0, 10), (100, 110)] (1/4) (3/20) 100
      = ⟨none, none, some [(100, 110)]⟩ ∧
    ¬ ((1/4 : ℚ) * 100 ≤ (110 : ℚ) - (100 : ℚ)) := by
  constructor
  · norm_num [find_holds, holdSweep]
  · norm_num

/-- Invariant of the consolidation sweep: starting from a current hold `p`
that starts no later than any remaining candidate, with an accumulator whose
holds are well-formed and pairwise separated by the gap threshold and all
end at least the threshold before `p` starts, the sweep output is
well-formed and pairwise separated by the gap threshold. -/
theorem holdSweep_invariant (min_hold_dur min_hold_gap samp_freq : ℚ)
    (hg : 0 ≤ min_hold_gap * samp_freq) :
    ∀ (cand : List (ℕ × ℕ)) (p : ℕ × ℕ) (acc : List (ℕ × ℕ)),
    (∀ x ∈ cand, x.1 ≤ x.2) →
    List.Pairwise (fun a b : ℕ × ℕ => a.1 ≤ b.1) cand →
    (∀ x ∈ cand, p.1 ≤ x.1) →
    p.1 ≤ p.2 →
    (∀ x ∈ acc, x.1 ≤ x.2) →
    List.Pairwise (fun a b : ℕ × ℕ =>
      (a.2 : ℚ) + min_hold_gap * samp_freq ≤ (b.1 : ℚ)) acc →
    (∀ x ∈ acc, (x.2 : ℚ) + min_hold_gap * samp_freq ≤ (p.1 : ℚ)) →
    (∀ x ∈ holdSweep min_hold_dur min_hold_gap samp_freq cand (some p) acc, x.1 ≤ x.2) ∧
    List.Pairwise (fun a b : ℕ × ℕ =>
      (a.2 : ℚ) + min_hold_gap * samp_freq ≤ (b.1 : ℚ))
      (holdSweep min_hold_dur min_hold_gap samp_freq cand (some p) acc) := by
  intro cand
  induction cand with
  | nil =>
    intro p acc hcwf hcs hfut hpwf hawf hapw hlink
    simp only [holdSweep]
    constructor
    · intro x hx
      rcases List.mem_append.mp hx with h | h
      · exact hawf x h
      · rw [List.mem_singleton.mp h]
        exact hpwf
    · refine List.pairwise_append.mpr ⟨hapw, List.pairwise_singleton _ p, ?_⟩
      intro a ha b hb
      rw [List.mem_singleton.mp hb]
      exact hlink a ha
  | cons h t ih =>
    intro p acc hcwf hcs hfut hpwf hawf hapw hlink
    have hh_wf : h.1 ≤ h.2 := hcwf h (List.mem_cons_self h t)
    have hp_le_h : p.1 ≤ h.1 := hfut h (List.mem_cons_self h t)
    simp only [holdSweep]
    split_ifs with h1 h2
    · -- merge: the candidate extends the current hold
      refine ih (p.1, h.2) acc ?_ hcs.of_cons ?_ ?_ hawf hapw ?_
      · intro x hx
        exact hcwf x (List.mem_cons_of_mem h hx)
      · intro x hx
        exact hfut x (List.mem_cons_of_mem h hx)
      · exact le_trans hp_le_h hh_wf
      · intro x hx
        exact hlink x hx
    · -- flush: the current hold passes the duration test and is appended
      have hflush : (p.2 : ℚ) + min_hold_gap * samp_freq ≤ (h.1 : ℚ) := by
        push_neg at h1
        linarith
      refine ih h (acc ++ [p]) ?_ hcs.of_cons ?_ hh_wf ?_ ?_ ?_
      · intro x hx
        exact hcwf x (List.mem_cons_of_mem h hx)
      · intro x hx
        exact List.rel_of_pairwise_cons hcs hx
      · intro x hx
        rcases List.mem_append.mp hx with hxa | hxp
        · exact hawf x hxa
        · rw [List.mem_singleton.mp hxp]
          exact hpwf
      · refine List.pairwise_append.mpr ⟨hapw, List.pairwise_singleton _ p, ?_⟩
        intro a ha b hb
        rw [List.mem_singleton.mp hb]
        exact hlink a ha
      · intro x hx
        rcases List.mem_append.mp hx with hxa | hxp
        · have h3 := hlink x hxa
          have h4 : (p.1 : ℚ) ≤ (p.2 : ℚ) := by
            exact_mod_cast hpwf
          linarith
        · rw [List.mem_singleton.mp hxp]
          exact hflush
    · -- drop: the current hold fails the duration test and is discarded
      refine ih h acc ?_ hcs.of_cons ?_ hh_wf hawf hapw ?_
      · intro x hx
        exact hcwf x (List.mem_cons_of_mem h hx)
      · intro x hx
        exact List.rel_of_pairwise_cons hcs hx
      · intro x hx
        have h3 := hlink x hx
        have h4 : (p.1 : ℚ) ≤ (h.1 : ℚ) := by
          exact_mod_cast hp_le_h
        linarith

/-- Claim C3: on a chronologically ordered (start-sorted) list of
well-formed hold candidates, the consolidated array that `find_holds`
stores is pairwise non-overlapping, sorted by start, and consecutive holds
are separated by at least `min_hold_gap * samp_freq` samples. -/
theorem claim3_consolidated_invariants (st : State) (cand : List (ℕ × ℕ))
    (min_hold_dur min_hold_gap samp_freq : ℚ)
    (hg : 0 ≤ min_hold_gap * samp_freq)
    (hwf : ∀ x ∈ cand, x.1 ≤ x.2)
    (hsorted : List.Pairwise (fun a b : ℕ × ℕ => a.1 ≤ b.1) cand) :
    (cand ≠ [] →
      (find_holds st cand min_hold_dur min_hold_gap samp_freq)._holds
        = some (holdSweep min_hold_dur min_hold_gap samp_freq cand none [])) ∧
    List.Pairwise (fun a b : ℕ × ℕ => a.2 ≤ b.1)
      (holdSweep min_hold_dur min_hold_gap samp_freq cand none []) ∧
    List.Pairwise (fun a b : ℕ × ℕ => a.1 ≤ b.1)
      (holdSweep min_hold_dur min_hold_gap samp_freq cand none []) ∧
    List.Chain' (fun a b : ℕ × ℕ =>
      (a.2 : ℚ) + min_hold_gap * samp_freq ≤ (b.1 : ℚ))
      (holdSweep min_hold_dur min_hold_gap samp_freq cand none []) := by
  have hmain : (∀ x ∈ holdSweep min_hold_dur min_hold_gap samp_freq cand none [],
        x.1 ≤ x.2) ∧
      List.Pairwise (fun a b : ℕ × ℕ =>
        (a.2 : ℚ) + min_hold_gap * samp_freq ≤ (b.1 : ℚ))
        (holdSweep min_hold_dur min_hold_gap samp_freq cand none []) := by
    cases cand with
    | nil =>
      simp only [holdSweep]
      exact ⟨by intro x hx; simp at hx, List.Pairwise.nil⟩
    | cons h t =>
      have hstep : holdSweep min_hold_dur min_hold_gap samp_freq (h :: t) none []
          = holdSweep min_hold_dur min_hold_gap samp_freq t (some h) [] := by
        simp only [holdSweep]
      rw [hstep]
      refine holdSweep_invariant min_hold_dur min_hold_gap samp_freq hg t h []
        ?_ hsorted.of_cons ?_ (hwf h (List.mem_cons_self h t)) ?_ List.Pairwise.nil ?_
      · intro x hx
        exact hwf x (List.mem_cons_of_mem h hx)
      · intro x hx
        exact List.rel_of_pairwise_cons hsorted hx
      · intro x hx
        simp at hx
      · intro x hx
        simp at hx
  obtain ⟨owf, opw⟩ := hmain
  have hnonov : List.Pairwise (fun a b : ℕ × ℕ => a.2 ≤ b.1)
      (holdSweep min_hold_dur min_hold_gap samp_freq cand none []) := by
    refine opw.imp ?_
    intro a b hab
    have : (a.2 : ℚ) ≤ (b.1 : ℚ) := by linarith
    exact_mod_cast this
  refine ⟨?_, hnonov, ?_, opw.chain'⟩
  · intro hne
    have : cand.isEmpty = false := by
      rw [List.isEmpty_eq_false]
      exact hne
    simp [find_holds, this]
  · refine List.Pairwise.imp_of_mem ?_ hnonov
    intro a b ha hb hab
    exact le_trans (owf a ha) hab

/-- Claim C3, witness: two candidates 30 samples apart at
`min_hold_gap = 0.15`, `samp_freq = 100` (gap threshold 15): the stored
array keeps both, non-overlapping, start-sorted, gap at least 15. -/
theorem claim3_witness :
    (find_holds ⟨none, none, none⟩ [(0, 1), (30, 40)] (1/4) (3/20) 100)._holds
      = some (holdSweep (1/4) (3/20) 100 [(0, 1), (30, 40)] none []) ∧
    List.Pairwise (fun a b : ℕ × ℕ => a.2 ≤ b.1)
      (holdSweep (1/4) (3/20) 100 [(0, 1), (30, 40)] none []) ∧
    List.Pairwise (fun a b : ℕ × ℕ => a.1 ≤ b.1)
      (holdSweep (1/4) (3/20) 100 [(0, 1), (30, 40)] none []) ∧
    List.Chain' (fun a b : ℕ × ℕ => (a.2 : ℚ) + (3/20) * 100 ≤ (b.1 : ℚ))
      (holdSweep (1/4) (3/20) 100 [(0, 1), (30, 40)] none []) := by
  have h := claim3_consolidated_invariants ⟨none, none, none⟩ [(0, 1), (30, 40)]
    (1/4) (3/20) 100 (by norm_num) (by decide) (by decide)
  exact ⟨h.1 (by decide), h.2.1, h.2.2.1, h.2.2.2⟩

/-- Claim C4, code bug: `segments` orders by end time descending (the source
reverses the ascending `argsort` with `[::-1]`), contradicting both the
claim and the docstring of the property.  At troughs 0, 10, 20, peaks 5, 15
and sampling frequency 10 the result is the four segments in strictly
decreasing end order, which is not ascending by end time. -/
theorem claim4_segments_descending :
    segments [0, 10, 20] [5, 15] 10
      = [((3 : ℚ)/2, 2), (1, (3 : ℚ)/2), ((1 : ℚ)/2, 1), (0, (1 : ℚ)/2)] ∧
    ¬ List.Chain' (fun a b : ℚ × ℚ => a.2 ≤ b.2) (segments [0, 10, 20] [5, 15] 10) := by
  have h : segments [0, 10, 20] [5, 15] 10
      = [((3 : ℚ)/2, 2), (1, (3 : ℚ)/2), ((1 : ℚ)/2, 1), (0, (1 : ℚ)/2)] := by
    norm_num [segments, List.insertionSort, List.orderedInsert]
  refine ⟨h, ?_⟩
  rw [h]
  simp only [List.chain'_cons, List.chain'_singleton, and_true]
  norm_num

/-- Componentwise form of `List.getElem?_zip_eq_some`, used to evaluate the
derived views at an index. -/
theorem zip_getElem?_eq {α β : Type} (l₁ : List α) (l₂ : List β) (i : ℕ)
    (a : α) (b : β) (h₁ : l₁[i]? = some a) (h₂ : l₂[i]? = some b) :
    (l₁.zip l₂)[i]? = some (a, b) :=
  List.getElem?_zip_eq_some.mpr ⟨h₁, h₂⟩

/-- Claim C5: for a session whose extremum arrays satisfy
`len(peaks) == len(troughs) - 1`, cycle `i` is the pair of consecutive
troughs `i` and `i + 1` divided by the sampling frequency; inhalation `i`
starts at the cycle start and ends at peak `i`, exhalation `i` starts at
peak `i` and ends at the cycle end, and consecutive cycles tile: cycle
`i + 1` starts where cycle `i` ends. -/
theorem claim5_cycle_partition (troughs peaks : List ℕ) (samp_freq : ℚ) (i : ℕ)
    (hlen : peaks.length = troughs.length - 1)
    (ti ti1 pk : ℕ)
    (hti : troughs[i]? = some ti) (hti1 : troughs[i + 1]? = some ti1)
    (hpk : peaks[i]? = some pk) :
    (cycles troughs samp_freq)[i]? = some ((ti : ℚ) / samp_freq, (ti1 : ℚ) / samp_freq) ∧
    (inhalations troughs peaks samp_freq)[i]?
      = some ((ti : ℚ) / samp_freq, (pk : ℚ) / samp_freq) ∧
    (exhalations troughs peaks samp_freq)[i]?
      = some ((pk : ℚ) / samp_freq, (ti1 : ℚ) / samp_freq) ∧
    (∀ ti2, troughs[i + 2]? = some ti2 →
      (cycles troughs samp_freq)[i + 1]?
        = some ((ti1 : ℚ) / samp_freq, (ti2 : ℚ) / samp_freq)) := by
  obtain ⟨hb1, -⟩ := List.getElem?_eq_some_iff.mp hti1
  have hdrop : troughs.dropLast[i]? = some ti := by
    rw [List.getElem?_dropLast, if_pos (by omega)]
    exact hti
  have htail : troughs.tail[i]? = some ti1 := by
    rw [List.getElem?_tail]
    exact hti1
  refine ⟨?_, ?_, ?_, ?_⟩
  · unfold cycles
    rw [List.getElem?_map, zip_getElem?_eq _ _ _ _ _ hdrop htail]
    rfl
  · unfold inhalations
    rw [List.getElem?_map, zip_getElem?_eq _ _ _ _ _ hdrop hpk]
    rfl
  · unfold exhalations
    rw [List.getElem?_map, zip_getElem?_eq _ _ _ _ _ hpk htail]
    rfl
  · intro ti2 hti2
    obtain ⟨hb2, -⟩ := List.getElem?_eq_some_iff.mp hti2
    have hdrop1 : troughs.dropLast[i + 1]? = some ti1 := by
      rw [List.getElem?_dropLast, if_pos (by omega)]
      exact hti1
    have htail1 : troughs.tail[i + 1]? = some ti2 := by
      rw [List.getElem?_tail]
      exact hti2
    unfold cycles
    rw [List.getElem?_map, zip_getElem?_eq _ _ _ _ _ hdrop1 htail1]
    rfl

/-- Claim C5, witness: the partition identities at troughs 0, 10, 20 and
peaks 5, 15 with sampling frequency 10, at index 0. -/
theorem claim5_witness :
    (cycles [0, 10, 20] 10)[0]? = some ((0 : ℚ), 1) ∧
    (inhalations [0, 10, 20] [5, 15] 10)[0]? = some ((0 : ℚ), 1/2) ∧
    (exhalations [0, 10, 20] [5, 15] 10)[0]? = some ((1/2 : ℚ), 1) ∧
    (cycles [0, 10, 20] 10)[1]? = some ((1 : ℚ), 2) := by
  have h := claim5_cycle_partition [0, 10, 20] [5, 15] 10 0 (by decide) 0 10 5 rfl rfl rfl
  refine ⟨?_, ?_, ?_, ?_⟩
  · rw [h.1]
    norm_num
  · rw [h.2.1]
    norm_num
  · rw [h.2.2.1]
    norm_num
  · rw [h.2.2.2 20 rfl]
    norm_num

/-- Every island produced by the scan is well-formed: its onset does not
exceed its offset, provided any currently open onset does not exceed the
scan position. -/
theorem islandsAux_wf : ∀ (a : List ℕ) (i : ℕ) (st : Option ℕ),
    (∀ s, st = some s → s ≤ i) →
    ∀ q ∈ islandsAux a i st, q.1 ≤ q.2 := by
  intro a
  induction a with
  | nil =>
    intro i st hst q hq
    cases st with
    | none => simp [islandsAux] at hq
    | some s =>
      simp only [islandsAux, List.mem_singleton] at hq
      rw [hq]
      exact hst s rfl
  | cons x xs ih =>
    intro i st hst q hq
    cases st with
    | none =>
      simp only [islandsAux] at hq
      split_ifs at hq with hx
      · refine ih (i + 1) (some i) ?_ q hq
        intro s hs
        injection hs with hs
        omega
      · exact ih (i + 1) none (by intro s hs; cases hs) q hq
    | some s =>
      simp only [islandsAux] at hq
      split_ifs at hq with hx
      · refine ih (i + 1) (some s) ?_ q hq
        intro s2 hs2
        injection hs2 with hs2
        have := hst s rfl
        omega
      · rcases List.mem_cons.mp hq with hq1 | hq2
        · rw [hq1]
          exact hst s rfl
        · exact ih (i + 1) none (by intro s2 hs2; cases hs2) q hq2

/-- The scan selecting the longest candidate returns a member of the
candidate list. -/
theorem argmaxDur_mem : ∀ (xs : List (ℕ × ℕ)) (b : ℕ × ℕ),
    argmaxDur xs b ∈ b :: xs := by
  intro xs
  induction xs with
  | nil =>
    intro b
    simp [argmaxDur]
  | cons x xs ih =>
    intro b
    simp only [argmaxDur]
    split_ifs with hx
    · exact List.mem_cons_of_mem b (ih x)
    · rcases List.mem_cons.mp (ih b) with h | h
      · rw [h]
        exact List.mem_cons_self b _
      · exact List.mem_cons_of_mem b (List.mem_cons_of_mem x h)

/-- The scan selecting the longest candidate returns a candidate of maximal
duration. -/
theorem argmaxDur_max : ∀ (xs : List (ℕ × ℕ)) (b : ℕ × ℕ),
    ∀ y ∈ b :: xs, y.2 - y.1 ≤ (argmaxDur xs b).2 - (argmaxDur xs b).1 := by
  intro xs
  induction xs with
  | nil =>
    intro b y hy
    rw [List.mem_singleton.mp hy]
    simp [argmaxDur]
  | cons x xs ih =>
    intro b y hy
    simp only [argmaxDur]
    split_ifs with hx
    · rcases List.mem_cons.mp hy with h | h
      · rw [h]
        exact le_trans (le_of_lt hx) (ih x x (List.mem_cons_self x xs))
      · exact ih x y h
    · rcases List.mem_cons.mp hy with h | h
      · rw [h]
        exact ih b b (List.mem_cons_self b xs)
      · rcases List.mem_cons.mp h with h2 | h2
        · rw [h2]
          exact le_trans (le_of_not_lt hx) (ih b b (List.mem_cons_self b xs))
        · exact ih b y (List.mem_cons_of_mem b h2)

/-- A hold candidate produced for a band is well-formed. -/
theorem bandCandidate_wf (intr : List ℚ) (l h : ℚ) (c : ℕ × ℕ)
    (hc : bandCandidate intr l h = some c) : c.1 ≤ c.2 := by
  unfold bandCandidate at hc
  cases heq : find_islands (within_hold_region intr l h) with
  | nil =>
    rw [heq] at hc
    cases hc
  | cons x xs =>
    rw [heq] at hc
    injection hc with hc
    rw [← hc]
    refine islandsAux_wf (within_hold_region intr l h) 0 none ?_ _ ?_
    · intro s hs
      cases hs
    · rw [← find_islands, heq]
      exact argmaxDur_mem xs x

/-- All hold candidates produced for a band list are well-formed. -/
theorem bandCandidates_wf (intr : List ℚ) : ∀ (bands : List (ℚ × ℚ))
    (cs : List (ℕ × ℕ)), bandCandidates intr bands = some cs →
    ∀ c ∈ cs, c.1 ≤ c.2 := by
  intro bands
  induction bands with
  | nil =>
    intro cs hcs c hc
    injection hcs with hcs
    rw [← hcs] at hc
    simp at hc
  | cons b bs ih =>
    intro cs hcs c hc
    unfold bandCandidates at hcs
    cases hb : bandCandidate intr b.1 b.2 with
    | none =>
      rw [hb] at hcs
      cases hcs
    | some c0 =>
      rw [hb] at hcs
      cases hbs : bandCandidates intr bs with
      | none =>
        rw [hbs] at hcs
        cases hcs
      | some cs0 =>
        rw [hbs] at hcs
        injection hcs with hcs
        rw [← hcs] at hc
        rcases List.mem_cons.mp hc with h1 | h1
        · rw [h1]
          exact bandCandidate_wf intr b.1 b.2 c0 hb
        · exact ih cs0 hbs c h1

/-- Invariant of the overlap-merging loop: starting from a current hold that
starts no later than any remaining candidate, with an accumulator of
pairwise disjoint holds all ending before the current hold starts, the
output is pairwise disjoint. -/
theorem merge_overlapping_invariant :
    ∀ (l : List (ℕ × ℕ)) (p : ℕ × ℕ) (acc : List (ℕ × ℕ)),
    (∀ x ∈ l, x.1 ≤ x.2) →
    List.Pairwise (fun a b : ℕ × ℕ => a.1 ≤ b.1) l →
    (∀ x ∈ l, p.1 ≤ x.1) →
    p.1 ≤ p.2 →
    List.Pairwise (fun a b : ℕ × ℕ => a.2 < b.1) acc →
    (∀ x ∈ acc, x.2 < p.1) →
    List.Pairwise (fun a b : ℕ × ℕ => a.2 < b.1)
      (merge_overlapping l (some p) acc) := by
  intro l
  induction l with
  | nil =>
    intro p acc hlwf hls hfut hpwf hapw hlink
    simp only [merge_overlapping]
    refine List.pairwise_append.mpr ⟨hapw, List.pairwise_singleton _ p, ?_⟩
    intro a ha b hb
    rw [List.mem_singleton.mp hb]
    exact hlink a ha
  | cons h t ih =>
    intro p acc hlwf hls hfut hpwf hapw hlink
    have hh_wf : h.1 ≤ h.2 := hlwf h (List.mem_cons_self h t)
    have hp_le_h : p.1 ≤ h.1 := hfut h (List.mem_cons_self h t)
    simp only [merge_overlapping]
    split_ifs with h1
    · -- absorb: the candidate starts at or before the current end
      refine ih (p.1, h.2) acc ?_ hls.of_cons ?_ (le_trans hp_le_h hh_wf) hapw ?_
      · intro x hx
        exact hlwf x (List.mem_cons_of_mem h hx)
      · intro x hx
        exact hfut x (List.mem_cons_of_mem h hx)
      · intro x hx
        exact hlink x hx
    · -- flush: the candidate starts strictly after the current end
      have hgap : p.2 < h.1 := by omega
      refine ih h (acc ++ [p]) ?_ hls.of_cons ?_ hh_wf ?_ ?_
      · intro x hx
        exact hlwf x (List.mem_cons_of_mem h hx)
      · intro x hx
        exact List.rel_of_pairwise_cons hls hx
      · refine List.pairwise_append.mpr ⟨hapw, List.pairwise_singleton _ p, ?_⟩
        intro a ha b hb
        rw [List.mem_singleton.mp hb]
        exact hlink a ha
      · intro x hx
        rcases List.mem_append.mp hx with hxa | hxp
        · have := hlink x hxa
          omega
        · rw [List.mem_singleton.mp hxp]
          exact hgap

/-- Claim C6, counterexample: inside one interval, the wide band (0, 10)
yields the candidate (0, 10), the band (5, 5) yields the nested candidate
(1, 3), and the band (7, 7) yields (5, 8).  Candidates (0, 10) and (5, 8)
overlap, yet the merge loop absorbs the nested (1, 3) by truncating the
current hold to (0, 3) and then flushes it, so the returned holds are
(0, 3) and (5, 8): no returned hold contains the candidate (0, 10), i.e.
two overlapping candidates of the same interval are not merged into one. -/
theorem claim6_counterexample :
    bandCandidate [1, 5, 5, 1, 1, 7, 7, 7, 1, 1] 0 10 = some (0, 10) ∧
    bandCandidate [1, 5, 5, 1, 1, 7, 7, 7, 1, 1] 7 7 = some (5, 8) ∧
    ((5 : ℕ) < 10 ∧ (0 : ℕ) < 8) ∧
    find_holds_within_interval [1, 5, 5, 1, 1, 7, 7, 7, 1, 1] [1, 1, 1] 0
      [(0, 10), (5, 5), (7, 7)] = Except.ok (some [(0, 3), (5, 8)]) ∧
    ¬ ∃ hld ∈ [((0 : ℕ), (3 : ℕ)), (5, 8)], hld.1 ≤ 0 ∧ 10 ≤ hld.2 := by
  refine ⟨by decide, by decide, by decide, by decide, ?_⟩
  decide

/-- Claim C6 (amended): an interval whose histogram has no local maximum of
prominence exceeding `peak_prominence` contributes no hold candidates; for
each qualifying band only the single longest contiguous in-band run is kept
as that band's candidate, even when the band occurs in several disjoint
places; and the per-interval candidates are combined by a start-sorted
sweep that absorbs any candidate starting at or before the current hold's
end (the current end becoming the absorbed candidate's end), so the
returned holds are pairwise non-overlapping - though a nested candidate can
truncate the current hold, in which case a later candidate overlapping the
original extent is not coalesced with it (see the counterexample). -/
theorem claim6_amended (intr : List ℚ) (proms : List ℚ) (pp : ℚ)
    (bands : List (ℚ × ℚ)) :
    ((∀ pr ∈ proms, pr ≤ pp) →
      find_holds_within_interval intr proms pp bands = Except.ok none) ∧
    (∀ l h x xs, find_islands (within_hold_region intr l h) = x :: xs →
      bandCandidate intr l h = some (argmaxDur xs x) ∧
      argmaxDur xs x ∈ x :: xs ∧
      ∀ y ∈ x :: xs, y.2 - y.1 ≤ (argmaxDur xs x).2 - (argmaxDur xs x).1) ∧
    (∀ out, find_holds_within_interval intr proms pp bands
        = Except.ok (some out) →
      List.Chain' (fun a b : ℕ × ℕ => a.2 < b.1) out) := by
  refine ⟨?_, ?_, ?_⟩
  · intro hall
    have hfil : proms.filter (fun pr => decide (pp < pr)) = [] := by
      refine List.filter_eq_nil_iff.mpr ?_
      intro pr hpr hcontra
      rw [decide_eq_true_eq] at hcontra
      exact absurd (hall pr hpr) (not_le.mpr hcontra)
    unfold find_holds_within_interval
    rw [hfil]
    rfl
  · intro l h x xs heq
    unfold bandCandidate
    rw [heq]
    exact ⟨rfl, argmaxDur_mem xs x, argmaxDur_max xs x⟩
  · intro out hout
    unfold find_holds_within_interval at hout
    split_ifs at hout with hemp
    · cases hout
    · cases hcs : bandCandidates intr bands with
      | none =>
        rw [hcs] at hout
        cases hout
      | some cs =>
        rw [hcs] at hout
        injection hout with hout
        injection hout with hout
        rw [← hout]
        have hwf : ∀ c ∈ cs.insertionSort (fun a b => a.1 ≤ b.1), c.1 ≤ c.2 := by
          intro c hc
          exact bandCandidates_wf intr bands cs hcs c
            ((List.mem_insertionSort _).mp hc)
        have hsorted : List.Pairwise (fun a b : ℕ × ℕ => a.1 ≤ b.1)
            (cs.insertionSort (fun a b => a.1 ≤ b.1)) :=
          List.sorted_insertionSort _ cs
        cases hsi : cs.insertionSort (fun a b => a.1 ≤ b.1) with
        | nil =>
          simp only [merge_overlapping]
          exact List.chain'_nil
        | cons c0 ct =>
          rw [hsi] at hwf hsorted
          have hstep : merge_overlapping (c0 :: ct) none [] =
              merge_overlapping ct (some c0) [] := by
            simp only [merge_overlapping]
          rw [hstep]
          refine List.Pairwise.chain'
            (merge_overlapping_invariant ct c0 [] ?_ hsorted.of_cons ?_
              (hwf c0 (List.mem_cons_self c0 ct)) List.Pairwise.nil ?_)
          · intro z hz
            exact hwf z (List.mem_cons_of_mem c0 hz)
          · intro z hz
            exact List.rel_of_pairwise_cons hsorted hz
          · intro z hz
            simp at hz

/-- Claim C6, witness: an interval whose two histogram prominences both fail
the threshold contributes nothing, and a two-hold disjoint output chain as
produced on the counterexample input satisfies the non-overlap relation. -/
theorem claim6_witness :
    find_holds_within_interval [(1 : ℚ), 2] [(1 : ℚ)/100, 2/100] (5/100) []
      = Except.ok none ∧
    List.Chain' (fun a b : ℕ × ℕ => a.2 < b.1) [(0, 3), (5, 8)] := by
  constructor
  · refine (claim6_amended [(1 : ℚ), 2] [(1 : ℚ)/100, 2/100] (5/100) []).1 ?_
    intro pr hpr
    rcases List.mem_cons.mp hpr with h | h
    · rw [h]
      norm_num
    · rw [List.mem_singleton.mp h]
      norm_num
  · exact (claim6_amended [1, 5, 5, 1, 1, 7, 7, 7, 1, 1] [1, 1, 1] 0
      [(0, 10), (5, 5), (7, 7)]).2.2 [(0, 3), (5, 8)] (by decide)

/-- Claim C8, code bug: the segmentation branch of `__init__` builds both
stored arrays from the inhalation start times, so for the single inhalation
(2 s, 3 s) at sampling frequency 10 both arrays are `[20]`: the peak count
does not equal the trough count minus one and the values do not strictly
alternate, so the claimed extremum invariant fails. -/
theorem claim8_segmentation_invariant_fails :
    init_segmentation [(2, 3)] 10 = ([20], [20]) ∧
    ¬ extremumInvariant [20] [20] := by
  constructor
  · norm_num [init_segmentation]
  · decide

/-- Evaluation of `estimate_rel` at one index: the `i`-th stored REL value is
the loop body applied to the `i`-th non-final trough. -/
theorem estimate_rel_getElem (resp : List ℚ) (troughs : List ℕ)
    (lookbehind samp_freq : ℚ) (min_len : ℕ) (i : ℕ) (ti : ℕ)
    (h : troughs.dropLast[i]? = some ti) :
    (estimate_rel resp troughs lookbehind samp_freq min_len)[i]?
      = some (
        let prev := troughs.filter (fun (t2 : ℕ) =>
          decide ((t2 : ℚ) < (ti : ℚ)) &&
          decide ((ti : ℚ) - lookbehind * samp_freq < (t2 : ℚ)))
        if prev.isEmpty then none
        else some (npMedian (prev.map (fun idx => resp.getD idx 0)))) := by
  unfold estimate_rel
  rw [List.getElem?_map, h]
  rfl

/-- Claim C7: `estimate_rel` stores one value per trough except the last;
entry `i` is the median raw amplitude at the troughs strictly earlier than
trough `i` (under the strict monotonicity of the trough array, exactly the
troughs at positions below `i`) that lie within `lookbehind` seconds before
it, and is `none` (Python `NaN`) when no such prior trough exists. -/
theorem claim7_rel_median (resp : List ℚ) (troughs : List ℕ)
    (lookbehind samp_freq : ℚ) (min_len : ℕ) (i : ℕ) (ti : ℕ)
    (hsorted : List.Pairwise (· < ·) troughs)
    (hti : troughs[i]? = some ti) (hlast : i + 1 < troughs.length) :
    (estimate_rel resp troughs lookbehind samp_freq min_len).length
      = troughs.length - 1 ∧
    (estimate_rel resp troughs lookbehind samp_freq min_len)[i]?
      = some (
        let prior := (troughs.take i).filter (fun (t2 : ℕ) =>
          decide ((ti : ℚ) - lookbehind * samp_freq < (t2 : ℚ)))
        if prior.isEmpty then none
        else some (npMedian (prior.map (fun idx => resp.getD idx 0)))) := by
  obtain ⟨hb, hgeq⟩ := List.getElem?_eq_some_iff.mp hti
  have hdropc : troughs.drop i = ti :: troughs.drop (i + 1) := by
    rw [List.drop_eq_getElem_cons hb, hgeq]
  have hmem_take : ∀ x ∈ troughs.take i, x < ti := by
    have hsp := hsorted
    rw [← List.take_append_drop i troughs] at hsp
    have h3 := (List.pairwise_append.mp hsp).2.2
    intro x hx
    refine h3 x hx ti ?_
    rw [hdropc]
    exact List.mem_cons_self ti _
  have hmem_drop : ∀ x ∈ troughs.drop i, ¬ (x < ti) := by
    intro x hx
    rw [hdropc] at hx
    rcases List.mem_cons.mp hx with h | h
    · subst h
      exact lt_irrefl x
    · have hpd : List.Pairwise (· < ·) (troughs.drop i) :=
        hsorted.sublist (List.drop_sublist i troughs)
      rw [hdropc] at hpd
      have := List.rel_of_pairwise_cons hpd h
      omega
  have hfilter : troughs.filter (fun (t2 : ℕ) =>
        decide ((t2 : ℚ) < (ti : ℚ)) &&
        decide ((ti : ℚ) - lookbehind * samp_freq < (t2 : ℚ)))
      = (troughs.take i).filter (fun (t2 : ℕ) =>
        decide ((ti : ℚ) - lookbehind * samp_freq < (t2 : ℚ))) := by
    conv_lhs => rw [← List.take_append_drop i troughs]
    rw [List.filter_append]
    have hA : (troughs.take i).filter (fun (t2 : ℕ) =>
          decide ((t2 : ℚ) < (ti : ℚ)) &&
          decide ((ti : ℚ) - lookbehind * samp_freq < (t2 : ℚ)))
        = (troughs.take i).filter (fun (t2 : ℕ) =>
          decide ((ti : ℚ) - lookbehind * samp_freq < (t2 : ℚ))) := by
      refine List.filter_congr ?_
      intro x hx
      have hxq : (x : ℚ) < (ti : ℚ) := by
        exact_mod_cast hmem_take x hx
      rw [decide_eq_true hxq, Bool.true_and]
    have hB : (troughs.drop i).filter (fun (t2 : ℕ) =>
          decide ((t2 : ℚ) < (ti : ℚ)) &&
          decide ((ti : ℚ) - lookbehind * samp_freq < (t2 : ℚ))) = [] := by
      refine List.filter_eq_nil_iff.mpr ?_
      intro x hx hcontra
      simp only [Bool.and_eq_true, decide_eq_true_eq] at hcontra
      refine hmem_drop x hx ?_
      exact_mod_cast hcontra.1
    rw [hA, hB, List.append_nil]
  have hdl : troughs.dropLast[i]? = some ti := by
    rw [List.getElem?_dropLast, if_pos (by omega)]
    exact hti
  refine ⟨by simp [estimate_rel], ?_⟩
  rw [estimate_rel_getElem resp troughs lookbehind samp_freq min_len i ti hdl]
  simp only [hfilter]

/-- Claim C7, witness: signal [1, 2, 3], troughs [0, 1, 2], lookbehind 2 s at
sampling frequency 1: REL has one entry per non-final trough, and the entry
at index 1 is the median amplitude at the single prior trough in range. -/
theorem claim7_witness :
    (estimate_rel [1, 2, 3] [0, 1, 2] 2 1 1).length = 2 ∧
    (estimate_rel [1, 2, 3] [0, 1, 2] 2 1 1)[1]? = some (some 1) := by
  have h := claim7_rel_median [1, 2, 3] [0, 1, 2] 2 1 1 1 1 (by decide) rfl (by decide)
  refine ⟨h.1, ?_⟩
  rw [h.2]
  norm_num [List.filter, npMedian, List.insertionSort, List.orderedInsert]

/-- Claim C9: `estimate_rel` accepts `min_len` but never reads it, so two
runs differing only in `min_len` store identical REL arrays. -/
theorem claim9_min_len_no_effect (resp : List ℚ) (troughs : List ℕ)
    (lookbehind samp_freq : ℚ) (m1 m2 : ℕ) :
    estimate_rel resp troughs lookbehind samp_freq m1
      = estimate_rel resp troughs lookbehind samp_freq m2 :=
  rfl

/-- Claim C10: `find_holds` called with no hold candidates returns with the
session state untouched, the `holds` property yields `None` whenever
`_holds` is unset, and otherwise yields the stored sample pairs divided by
the sampling frequency. -/
theorem claim10_holds_none (st : State) (min_hold_dur min_hold_gap samp_freq : ℚ) :
    find_holds st [] min_hold_dur min_hold_gap samp_freq = st ∧
    (st._holds = none → holds st samp_freq = none) ∧
    (∀ hs, st._holds = some hs →
      holds st samp_freq
        = some (hs.map (fun p => ((p.1 : ℚ) / samp_freq, (p.2 : ℚ) / samp_freq)))) := by
  refine ⟨rfl, fun h => ?_, fun hs h => ?_⟩ <;> simp [holds, h]

/-- Claim C10, witness: the three conjuncts at concrete session states. -/
theorem claim10_witness :
    find_holds ⟨none, none, none⟩ [] 1 1 1 = ⟨none, none, none⟩ ∧
    holds ⟨none, none, none⟩ 1 = none ∧
    holds ⟨none, none, some [(1, 2)]⟩ 2 = some [((1 : ℚ)/2, 1)] := by
  refine ⟨(claim10_holds_none ⟨none, none, none⟩ 1 1 1).1,
    (claim10_holds_none ⟨none, none, none⟩ 1 1 1).2.1 rfl, ?_⟩
  have h := (claim10_holds_none ⟨none, none, some [(1, 2)]⟩ 1 1 2).2.2 [(1, 2)] rfl
  rw [h]
  norm_num

end RIP
